import Mathlib

/-!
Verification of the attribution core of UNIFIED-ATTRIBUTION-FRAMEWORK.

The Python core lives in `src/core/`:
* `shapley.py`  — `FastShapleyAttribution` (exact and Monte-Carlo Shapley values);
* `markov.py`   — `MarkovAttribution` (transition model and removal effects);
* `hybrid.py`   — `HybridShapleyMarkov` (linear blend of the two estimators);
* `privacy.py`  — `PrivateAttribution` (Laplace mechanism and budget tracking).

The embedding below translates those classes into pure Lean functions.
Python floats are idealised as rationals (`ℚ`); Python dicts keyed by channel
name become association lists `List (String × ℚ)` kept in the iteration order
of the source; randomness (`np.random.permutation`, `np.random.laplace`) is
passed in explicitly as an oracle argument (the list of sampled permutations,
resp. the stream of standard-Laplace draws), so every definition is a
deterministic function of its inputs and the sampled values.
-/

namespace Attribution

/-! ## Shapley estimator (`src/core/shapley.py`)

`exact_shapley` (lines 73–102) iterates over every coalition size `r`, every
size-`r` coalition (`itertools.combinations(players, r)`, i.e. every
subsequence of `players` of that length), and every player outside the
coalition, accumulating `weight * marginal` into that player's entry, with
`weight = r! * (n-r-1)! / n!`.  For a fixed player the accumulated total is
therefore the sum, over all subsequences not containing the player, of the
weighted marginal; `players.sublists` enumerates exactly the coalitions that
`combinations` produces over all `r` (addition is commutative, so the
grouping by size does not change the total). -/

/-- Coalition weight `r! * (n - r - 1)! / n!` from `shapley.py` lines 96–98. -/
def shapWeight (n r : ℕ) : ℚ :=
  (Nat.factorial r * Nat.factorial (n - r - 1) : ℚ) / (Nat.factorial n : ℚ)

/-- The value `exact_shapley` accumulates for player `p`: the sum over all
coalitions (subsequences of `players`) not containing `p` of
`weight * (v (coalition + [p]) - v coalition)` (`shapley.py` lines 81–100). -/
def shapleyValue (players : List String) (v : List String → ℚ) (p : String) : ℚ :=
  ((players.sublists.filter (fun s => decide (p ∉ s))).map
    (fun s => shapWeight players.length s.length * (v (s ++ [p]) - v s))).sum

/-- `FastShapleyAttribution.exact_shapley` (`shapley.py` lines 73–102):
raises `ValueError` for more than 10 players, otherwise returns the dict of
accumulated Shapley values in player order. -/
def exact_shapley (players : List String) (v : List String → ℚ) :
    Except String (List (String × ℚ)) :=
  if players.length > 10 then Except.error "Exact Shapley only for n <= 10"
  else Except.ok (players.map (fun p => (p, shapleyValue players v p)))

/-! ### Finset form of the exact Shapley sum

`exact_shapley` applies `value_function` to concrete Python lists, but a
game-theoretic value function is a function of the *set* of players; the
claims accordingly assume `value_fn` is insensitive to the order in which a
coalition is listed.  `toSetFn` turns such a list function into a function on
finite sets (via the canonically sorted listing), and `phiF` is the Shapley
sum re-indexed over `Finset.powerset`. -/

/-- The set function induced by a permutation-invariant list function. -/
def toSetFn (v : List String → ℚ) : Finset String → ℚ :=
  fun S => v (S.sort (· ≤ ·))

/-- Shapley value as a sum over the powerset. -/
def phiF (N : Finset String) (V : Finset String → ℚ) (p : String) : ℚ :=
  ∑ S ∈ N.powerset.filter (fun S => p ∉ S),
    shapWeight N.card S.card * (V (insert p S) - V S)

/-- A permutation-invariant list function agrees with its induced set
function on every duplicate-free list. -/
theorem toSetFn_eq (v : List String → ℚ)
    (hperm : ∀ s t : List String, s.Perm t → v s = v t)
    (s : List String) (hs : s.Nodup) : v s = toSetFn v s.toFinset := by
  unfold toSetFn
  exact hperm s _ ((Finset.sort_perm_toList _ _).trans (List.toFinset_toList hs)).symm

/-- Summing `g ∘ toFinset` over the sublists of a duplicate-free list is the
same as summing `g` over the powerset of its element set. -/
theorem sum_sublists_toFinset (l : List String) (hl : l.Nodup)
    (g : Finset String → ℚ) :
    ((l.sublists.map (fun s => g s.toFinset)).sum) =
      ∑ S ∈ l.toFinset.powerset, g S := by
  induction l generalizing g with
  | nil => simp
  | cons a t ih =>
    rcases List.nodup_cons.mp hl with ⟨ha, ht⟩
    have hperm := (List.sublists_cons_perm_append a t).map (fun s => g s.toFinset)
    rw [hperm.sum_eq, List.map_append, List.sum_append, List.map_map]
    have h2 : ((fun s => g s.toFinset) ∘ (a :: ·)) =
        fun s : List String => g (insert a s.toFinset) := by
      funext s; simp
    rw [h2, ih ht g, ih ht (fun S => g (insert a S))]
    have haf : a ∉ t.toFinset := by simpa using ha
    rw [List.toFinset_cons, Finset.sum_powerset_insert haf]

/-- Summing over a filtered list equals summing the `if`-guarded function. -/
theorem sum_map_filter_eq (l : List (List String)) (q : List String → Bool)
    (g : List String → ℚ) :
    ((l.filter q).map g).sum = (l.map (fun s => if q s then g s else 0)).sum := by
  induction l with
  | nil => simp
  | cons a t ih =>
    by_cases h : q a <;> simp [List.filter_cons, h, ih]

/-- The list accumulated by `exact_shapley` for a player equals the powerset
sum `phiF`, provided the players are distinct and the value function is
permutation-invariant. -/
theorem shapleyValue_eq_phiF (players : List String) (v : List String → ℚ)
    (hnd : players.Nodup)
    (hperm : ∀ s t : List String, s.Perm t → v s = v t) (p : String) :
    shapleyValue players v p = phiF players.toFinset (toSetFn v) p := by
  unfold shapleyValue phiF
  rw [sum_map_filter_eq]
  have hcard : players.toFinset.card = players.length :=
    List.toFinset_card_of_nodup hnd
  have hstep : players.sublists.map
      (fun s => if decide (p ∉ s) then
        shapWeight players.length s.length * (v (s ++ [p]) - v s) else 0) =
      players.sublists.map
      (fun s => if p ∉ s.toFinset then
        shapWeight players.toFinset.card s.toFinset.card *
          (toSetFn v (insert p s.toFinset) - toSetFn v s.toFinset) else 0) := by
    apply List.map_congr_left
    intro s hs
    have hsub : s.Sublist players := List.mem_sublists.mp hs
    have hsnd : s.Nodup := hsub.nodup hnd
    by_cases hp : p ∈ s
    · simp [hp]
    · have hp' : p ∉ s.toFinset := by simpa using hp
      have hc1 : decide (p ∉ s) = true := by simpa using hp
      rw [if_pos hc1, if_pos hp']
      have happ : (s ++ [p]).Nodup := by
        simp [List.nodup_append, hsnd, hp]
      have htf : (s ++ [p]).toFinset = insert p s.toFinset := by
        simp [List.toFinset_append, Finset.union_comm, Finset.insert_eq]
      rw [toSetFn_eq v hperm s hsnd, toSetFn_eq v hperm (s ++ [p]) happ, htf,
        hcard, List.toFinset_card_of_nodup hsnd]
  rw [hstep]
  exact (sum_sublists_toFinset players hnd
    (fun S => if p ∉ S then
      shapWeight players.toFinset.card S.card *
        (toSetFn v (insert p S) - toSetFn v S) else 0)).trans
    (Finset.sum_filter _ _).symm

/-! ### Efficiency of the exact Shapley sum -/

/-- Middle coefficient in the efficiency telescoping: for `1 ≤ t < n` the
contributions of coalitions of size `t` cancel. -/
theorem coeff_mid (n t : ℕ) (h1 : 1 ≤ t) (h2 : t < n) :
    (t : ℚ) * shapWeight n (t - 1) - ((n - t : ℕ) : ℚ) * shapWeight n t = 0 := by
  obtain ⟨s, rfl⟩ : ∃ s, t = s + 1 := ⟨t - 1, by omega⟩
  obtain ⟨u, hu⟩ : ∃ u, n - (s + 1) = u + 1 := ⟨n - (s + 1) - 1, by omega⟩
  unfold shapWeight
  have h3 : s + 1 - 1 = s := by omega
  have h4 : n - s - 1 = u + 1 := by omega
  have h5 : n - (s + 1) - 1 = u := by omega
  rw [h3, h4, h5, hu, Nat.factorial_succ u, Nat.factorial_succ s]
  push_cast
  ring

/-- Coefficient of `V ∅` in the efficiency telescoping. -/
theorem coeff_bot (n : ℕ) (h : 1 ≤ n) :
    ((0 : ℕ) : ℚ) * shapWeight n (0 - 1) - ((n - 0 : ℕ) : ℚ) * shapWeight n 0 = -1 := by
  obtain ⟨m, rfl⟩ : ∃ m, n = m + 1 := ⟨n - 1, by omega⟩
  unfold shapWeight
  have h1 : m + 1 - 0 - 1 = m := by omega
  have h2 : m + 1 - 0 = m + 1 := by omega
  rw [h1, h2, Nat.cast_zero, zero_mul, zero_sub, Nat.factorial_zero,
    Nat.factorial_succ]
  have hm : (m.factorial : ℚ) ≠ 0 := by
    exact_mod_cast (Nat.factorial_pos m).ne'
  have hm1 : ((m : ℚ) + 1) ≠ 0 := by positivity
  push_cast
  field_simp

/-- Coefficient of `V N` in the efficiency telescoping. -/
theorem coeff_top (n : ℕ) (h : 1 ≤ n) :
    ((n : ℕ) : ℚ) * shapWeight n (n - 1) - ((n - n : ℕ) : ℚ) * shapWeight n n = 1 := by
  obtain ⟨m, rfl⟩ : ∃ m, n = m + 1 := ⟨n - 1, by omega⟩
  unfold shapWeight
  have h1 : m + 1 - 1 = m := by omega
  have h2 : m + 1 - m - 1 = 0 := by omega
  have h3 : m + 1 - (m + 1) = 0 := by omega
  rw [h1, h2, h3, Nat.cast_zero, zero_mul, sub_zero, Nat.factorial_zero,
    Nat.factorial_succ]
  have hm : (m.factorial : ℚ) ≠ 0 := by
    exact_mod_cast (Nat.factorial_pos m).ne'
  have hm1 : ((m : ℚ) + 1) ≠ 0 := by positivity
  push_cast
  field_simp

/-- Efficiency of the powerset-indexed Shapley sum: the values over all
players of a nonempty set sum to `V N - V ∅`. -/
theorem sum_phiF_eq (N : Finset String) (V : Finset String → ℚ) (hN : N.Nonempty) :
    ∑ p ∈ N, phiF N V p = V N - V ∅ := by
  classical
  have hn1 : 1 ≤ N.card := Finset.card_pos.mpr hN
  have hA : ∀ p ∈ N,
      (∑ S ∈ N.powerset.filter (fun S => p ∉ S),
        shapWeight N.card S.card * V (insert p S)) =
      ∑ T ∈ N.powerset.filter (fun T => p ∈ T),
        shapWeight N.card (T.card - 1) * V T := by
    intro p hp
    refine Finset.sum_nbij' (fun S => insert p S) (fun T => T.erase p) ?_ ?_ ?_ ?_ ?_
    · intro S hS
      rw [Finset.mem_filter, Finset.mem_powerset] at hS ⊢
      exact ⟨Finset.insert_subset hp hS.1, Finset.mem_insert_self _ _⟩
    · intro T hT
      rw [Finset.mem_filter, Finset.mem_powerset] at hT ⊢
      exact ⟨(Finset.erase_subset _ _).trans hT.1, Finset.not_mem_erase _ _⟩
    · intro S hS
      rw [Finset.mem_filter] at hS
      exact Finset.erase_insert hS.2
    · intro T hT
      rw [Finset.mem_filter] at hT
      exact Finset.insert_erase hT.2
    · intro S hS
      rw [Finset.mem_filter] at hS
      rw [Finset.card_insert_of_not_mem hS.2, Nat.add_sub_cancel]
  have hswapA :
      (∑ p ∈ N, ∑ T ∈ N.powerset.filter (fun T => p ∈ T),
        shapWeight N.card (T.card - 1) * V T) =
      ∑ T ∈ N.powerset, (T.card : ℚ) * (shapWeight N.card (T.card - 1) * V T) := by
    have h : ∀ (x : String) (y : Finset String),
        x ∈ N ∧ y ∈ N.powerset.filter (fun T => x ∈ T) ↔
        x ∈ N.filter (fun p => p ∈ y) ∧ y ∈ N.powerset := by
      intro x y
      simp only [Finset.mem_filter, Finset.mem_powerset]
      tauto
    rw [Finset.sum_comm' h]
    refine Finset.sum_congr rfl fun T hT => ?_
    rw [Finset.mem_powerset] at hT
    have hft : N.filter (fun p => p ∈ T) = T := by
      ext x
      simp only [Finset.mem_filter]
      exact ⟨fun hx => hx.2, fun hx => ⟨hT hx, hx⟩⟩
    rw [hft, Finset.sum_const, nsmul_eq_mul]
  have hswapB :
      (∑ p ∈ N, ∑ S ∈ N.powerset.filter (fun S => p ∉ S),
        shapWeight N.card S.card * V S) =
      ∑ S ∈ N.powerset, ((N.card - S.card : ℕ) : ℚ) *
        (shapWeight N.card S.card * V S) := by
    have h : ∀ (x : String) (y : Finset String),
        x ∈ N ∧ y ∈ N.powerset.filter (fun S => x ∉ S) ↔
        x ∈ N.filter (fun p => p ∉ y) ∧ y ∈ N.powerset := by
      intro x y
      simp only [Finset.mem_filter, Finset.mem_powerset]
      tauto
    rw [Finset.sum_comm' h]
    refine Finset.sum_congr rfl fun S hS => ?_
    rw [Finset.mem_powerset] at hS
    rw [Finset.sum_const, nsmul_eq_mul]
    congr 2
    rw [← Finset.sdiff_eq_filter, Finset.card_sdiff hS]
  calc ∑ p ∈ N, phiF N V p
      = (∑ p ∈ N, ∑ S ∈ N.powerset.filter (fun S => p ∉ S),
          shapWeight N.card S.card * V (insert p S)) -
        (∑ p ∈ N, ∑ S ∈ N.powerset.filter (fun S => p ∉ S),
          shapWeight N.card S.card * V S) := by
        unfold phiF
        rw [← Finset.sum_sub_distrib]
        refine Finset.sum_congr rfl fun p _ => ?_
        rw [← Finset.sum_sub_distrib]
        exact Finset.sum_congr rfl fun S _ => by ring
    _ = ∑ T ∈ N.powerset,
          ((T.card : ℚ) * shapWeight N.card (T.card - 1) -
           ((N.card - T.card : ℕ) : ℚ) * shapWeight N.card T.card) * V T := by
        rw [Finset.sum_congr rfl hA, hswapA, hswapB, ← Finset.sum_sub_distrib]
        exact Finset.sum_congr rfl fun T _ => by ring
    _ = V N - V ∅ := by
        rw [Finset.sum_eq_add_of_mem ∅ N (Finset.empty_mem_powerset N)
          (Finset.mem_powerset_self N) (Ne.symm hN.ne_empty) ?_]
        · rw [Finset.card_empty, coeff_bot N.card hn1, coeff_top N.card hn1]
          ring
        · intro T hT hTne
          rw [Finset.mem_powerset] at hT
          have h1 : 1 ≤ T.card :=
            Finset.card_pos.mpr (Finset.nonempty_iff_ne_empty.mpr hTne.1)
          have h2 : T.card < N.card :=
            Finset.card_lt_card (lt_of_le_of_ne hT hTne.2)
          rw [coeff_mid N.card T.card h1 h2, zero_mul]

/-- List-level efficiency: the values accumulated by `exact_shapley` over a
duplicate-free, nonempty player list sum to `v players - v []`, for any
permutation-invariant value function. -/
theorem sum_shapleyValue (players : List String) (v : List String → ℚ)
    (hnd : players.Nodup) (hne : players ≠ [])
    (hperm : ∀ s t : List String, s.Perm t → v s = v t) :
    ((players.map (fun p => shapleyValue players v p)).sum) = v players - v [] := by
  have hNe : players.toFinset.Nonempty := by
    cases players with
    | nil => exact absurd rfl hne
    | cons a t => exact ⟨a, by simp⟩
  rw [← List.sum_toFinset _ hnd,
    Finset.sum_congr rfl fun p _ => shapleyValue_eq_phiF players v hnd hperm p,
    sum_phiF_eq players.toFinset (toSetFn v) hNe,
    ← toSetFn_eq v hperm players hnd]
  congr 1
  unfold toSetFn
  rw [Finset.sort_empty]

/-- C1: for every duplicate-free contributor list with `1 ≤ n ≤ 10` and every
permutation-invariant value function with `value_fn [] = 0`, `exact_shapley`
succeeds and its attribution values sum to `value_fn` of all contributors; in
particular on `{A,B,C}` with `value_fn S = |S|/3` it returns exactly `1/3`
for each contributor. -/
theorem exact_shapley_efficiency (players : List String) (v : List String → ℚ)
    (hnd : players.Nodup) (h1 : 1 ≤ players.length) (h10 : players.length ≤ 10)
    (hperm : ∀ s t : List String, s.Perm t → v s = v t) (h0 : v [] = 0) :
    exact_shapley players v =
      Except.ok (players.map (fun p => (p, shapleyValue players v p))) ∧
    ((players.map (fun p => shapleyValue players v p)).sum) = v players ∧
    exact_shapley ["A", "B", "C"] (fun s => (s.length : ℚ) / 3) =
      Except.ok [("A", 1/3), ("B", 1/3), ("C", 1/3)] := by
  refine ⟨?_, ?_, ?_⟩
  · unfold exact_shapley
    rw [if_neg (by omega)]
  · have hne : players ≠ [] := by
      intro h
      rw [h] at h1
      simp at h1
    rw [sum_shapleyValue players v hnd hne hperm, h0, sub_zero]
  · unfold exact_shapley
    rw [if_neg (by norm_num)]
    refine congrArg Except.ok ?_
    norm_num +decide [shapleyValue, shapWeight, List.sublists, Nat.factorial]

/-- Witness for C1: the hypotheses hold for `{A,B,C}` with `v S = |S|/3`, and
the efficiency conclusion evaluates as claimed. -/
theorem exact_shapley_efficiency_witness :
    exact_shapley ["A", "B", "C"] (fun s => (s.length : ℚ) / 3) =
      Except.ok (["A", "B", "C"].map (fun p =>
        (p, shapleyValue ["A", "B", "C"] (fun s => (s.length : ℚ) / 3) p))) ∧
    ((["A", "B", "C"].map (fun p =>
        shapleyValue ["A", "B", "C"] (fun s => (s.length : ℚ) / 3) p)).sum) =
      (fun s : List String => (s.length : ℚ) / 3) ["A", "B", "C"] ∧
    exact_shapley ["A", "B", "C"] (fun s => (s.length : ℚ) / 3) =
      Except.ok [("A", 1/3), ("B", 1/3), ("C", 1/3)] :=
  exact_shapley_efficiency ["A", "B", "C"] (fun s => (s.length : ℚ) / 3)
    (by decide) (by decide) (by decide)
    (fun s t h => by show ((s.length : ℚ) / 3) = (t.length : ℚ) / 3; rw [h.length_eq])
    (by norm_num)

/-- C4: `exact_shapley` fails with the size-limit error exactly when there are
more than 10 contributors, and for `n ≤ 10` it returns the attribution list
for every value function. -/
theorem exact_shapley_size_limit (players : List String) (v : List String → ℚ) :
    ((∃ msg, exact_shapley players v = Except.error msg) ↔ 10 < players.length) ∧
    (players.length ≤ 10 →
      exact_shapley players v =
        Except.ok (players.map (fun p => (p, shapleyValue players v p)))) := by
  unfold exact_shapley
  constructor
  · constructor
    · rintro ⟨msg, hmsg⟩
      by_contra hle
      rw [if_neg hle] at hmsg
      exact Except.noConfusion hmsg
    · intro hgt
      exact ⟨"Exact Shapley only for n <= 10", by rw [if_pos hgt]⟩
  · intro hle
    rw [if_neg (by omega)]

/-- Witness for C4: eleven contributors trigger the size-limit error, one
contributor does not. -/
theorem exact_shapley_size_limit_witness :
    (∃ msg, exact_shapley ["P0", "P1", "P2", "P3", "P4", "P5", "P6", "P7",
      "P8", "P9", "P10"] (fun _ => 0) = Except.error msg) ∧
    exact_shapley ["A"] (fun _ => 0) =
      Except.ok (["A"].map (fun p => (p, shapleyValue ["A"] (fun _ => 0) p))) :=
  ⟨(exact_shapley_size_limit _ (fun _ => 0)).1.mpr (by decide),
   (exact_shapley_size_limit ["A"] (fun _ => 0)).2 (by decide)⟩

/-! ### Symmetry of the exact Shapley sum -/

/-- Symmetry of the powerset-indexed Shapley sum: two players that are
interchangeable for the set function receive equal values. -/
theorem phiF_symm (N : Finset String) (V : Finset String → ℚ) (i j : String)
    (hi : i ∈ N) (hj : j ∈ N) (hij : i ≠ j)
    (hsym : ∀ S : Finset String, i ∉ S → j ∉ S →
      V (insert i S) = V (insert j S)) :
    phiF N V i = phiF N V j := by
  classical
  unfold phiF
  have hpart1 :
      (∑ S ∈ (N.powerset.filter (fun S => i ∉ S)).filter (fun S => j ∉ S),
        shapWeight N.card S.card * (V (insert i S) - V S)) =
      ∑ S ∈ (N.powerset.filter (fun S => j ∉ S)).filter (fun S => i ∉ S),
        shapWeight N.card S.card * (V (insert j S) - V S) := by
    rw [Finset.filter_comm]
    refine Finset.sum_congr rfl fun S hS => ?_
    simp only [Finset.mem_filter, Finset.mem_powerset] at hS
    rw [hsym S hS.2 hS.1.2]
  have hpart2 :
      (∑ S ∈ (N.powerset.filter (fun S => i ∉ S)).filter (fun S => ¬ j ∉ S),
        shapWeight N.card S.card * (V (insert i S) - V S)) =
      ∑ T ∈ (N.powerset.filter (fun T => j ∉ T)).filter (fun T => ¬ i ∉ T),
        shapWeight N.card T.card * (V (insert j T) - V T) := by
    refine Finset.sum_nbij' (fun S => insert i (S.erase j))
      (fun T => insert j (T.erase i)) ?_ ?_ ?_ ?_ ?_
    · intro S hS
      simp only [Finset.mem_filter, Finset.mem_powerset, not_not] at hS ⊢
      obtain ⟨⟨hSN, hiS⟩, hjS⟩ := hS
      refine ⟨⟨Finset.insert_subset hi ((Finset.erase_subset _ _).trans hSN), ?_⟩,
        Finset.mem_insert_self _ _⟩
      intro hmem
      rcases Finset.mem_insert.mp hmem with h | h
      · exact hij h.symm
      · exact Finset.not_mem_erase _ _ h
    · intro T hT
      simp only [Finset.mem_filter, Finset.mem_powerset, not_not] at hT ⊢
      obtain ⟨⟨hTN, hjT⟩, hiT⟩ := hT
      refine ⟨⟨Finset.insert_subset hj ((Finset.erase_subset _ _).trans hTN), ?_⟩,
        Finset.mem_insert_self _ _⟩
      intro hmem
      rcases Finset.mem_insert.mp hmem with h | h
      · exact hij h
      · exact Finset.not_mem_erase _ _ h
    · intro S hS
      simp only [Finset.mem_filter, Finset.mem_powerset, not_not] at hS
      obtain ⟨⟨hSN, hiS⟩, hjS⟩ := hS
      have h1 : i ∉ S.erase j := fun h => hiS (Finset.erase_subset _ _ h)
      show insert j ((insert i (S.erase j)).erase i) = S
      rw [Finset.erase_insert h1, Finset.insert_erase hjS]
    · intro T hT
      simp only [Finset.mem_filter, Finset.mem_powerset, not_not] at hT
      obtain ⟨⟨hTN, hjT⟩, hiT⟩ := hT
      have h1 : j ∉ T.erase i := fun h => hjT (Finset.erase_subset _ _ h)
      show insert i ((insert j (T.erase i)).erase j) = T
      rw [Finset.erase_insert h1, Finset.insert_erase hiT]
    · intro S hS
      simp only [Finset.mem_filter, Finset.mem_powerset, not_not] at hS
      obtain ⟨⟨hSN, hiS⟩, hjS⟩ := hS
      have h1 : i ∉ S.erase j := fun h => hiS (Finset.erase_subset _ _ h)
      have hcard : (insert i (S.erase j)).card = S.card := by
        rw [Finset.card_insert_of_not_mem h1, Finset.card_erase_of_mem hjS]
        have : 1 ≤ S.card := Finset.card_pos.mpr ⟨j, hjS⟩
        omega
      have hins : insert j (insert i (S.erase j)) = insert i S := by
        rw [Finset.Insert.comm, Finset.insert_erase hjS]
      have hbase : V (insert i (S.erase j)) = V S := by
        rw [hsym (S.erase j) h1 (Finset.not_mem_erase _ _), Finset.insert_erase hjS]
      rw [hcard, hins, hbase]
  rw [← Finset.sum_filter_add_sum_filter_not (N.powerset.filter (fun S => i ∉ S))
      (fun S => j ∉ S),
    ← Finset.sum_filter_add_sum_filter_not (N.powerset.filter (fun S => j ∉ S))
      (fun S => i ∉ S), hpart1, hpart2]

/-- C9: if two contributors are interchangeable for the value function —
adding `i` to any coalition containing neither yields the same value as
adding `j` — then `exact_shapley` (over at most 10 distinct contributors)
succeeds and assigns them equal values. -/
theorem exact_shapley_symmetry (players : List String) (v : List String → ℚ)
    (i j : String) (hnd : players.Nodup) (h10 : players.length ≤ 10)
    (hi : i ∈ players) (hj : j ∈ players) (hij : i ≠ j)
    (hperm : ∀ s t : List String, s.Perm t → v s = v t)
    (hinter : ∀ s : List String, i ∉ s → j ∉ s → v (s ++ [i]) = v (s ++ [j])) :
    exact_shapley players v =
      Except.ok (players.map (fun p => (p, shapleyValue players v p))) ∧
    shapleyValue players v i = shapleyValue players v j := by
  constructor
  · unfold exact_shapley
    rw [if_neg (by omega)]
  · rw [shapleyValue_eq_phiF players v hnd hperm i,
      shapleyValue_eq_phiF players v hnd hperm j]
    refine phiF_symm players.toFinset (toSetFn v) i j
      (by simpa using hi) (by simpa using hj) hij ?_
    intro S hiS hjS
    set s := S.sort (· ≤ ·) with hs
    have hsnd : s.Nodup := Finset.sort_nodup _ _
    have hstf : s.toFinset = S := Finset.sort_toFinset _ _
    have his : i ∉ s := fun h => hiS (by rw [← hstf]; simpa using h)
    have hjs : j ∉ s := fun h => hjS (by rw [← hstf]; simpa using h)
    have hndi : (s ++ [i]).Nodup := by simp [List.nodup_append, hsnd, his]
    have hndj : (s ++ [j]).Nodup := by simp [List.nodup_append, hsnd, hjs]
    have htfi : (s ++ [i]).toFinset = insert i S := by
      simp [List.toFinset_append, hstf, Finset.union_comm, Finset.insert_eq]
    have htfj : (s ++ [j]).toFinset = insert j S := by
      simp [List.toFinset_append, hstf, Finset.union_comm, Finset.insert_eq]
    have h1 := toSetFn_eq v hperm (s ++ [i]) hndi
    have h2 := toSetFn_eq v hperm (s ++ [j]) hndj
    rw [htfi] at h1
    rw [htfj] at h2
    rw [← h1, ← h2]
    exact hinter s his hjs

/-- Witness for C9: in `{A,B,C}` with `v S = |S|/3`, contributors `A` and `B`
are interchangeable and receive equal exact Shapley values. -/
theorem exact_shapley_symmetry_witness :
    exact_shapley ["A", "B", "C"] (fun s => (s.length : ℚ) / 3) =
      Except.ok (["A", "B", "C"].map (fun p =>
        (p, shapleyValue ["A", "B", "C"] (fun s => (s.length : ℚ) / 3) p))) ∧
    shapleyValue ["A", "B", "C"] (fun s => (s.length : ℚ) / 3) "A" =
      shapleyValue ["A", "B", "C"] (fun s => (s.length : ℚ) / 3) "B" :=
  exact_shapley_symmetry ["A", "B", "C"] (fun s => (s.length : ℚ) / 3) "A" "B"
    (by decide) (by decide) (by decide) (by decide) (by decide)
    (fun s t h => by show ((s.length : ℚ) / 3) = (t.length : ℚ) / 3; rw [h.length_eq])
    (fun s _ _ => by
      show (((s ++ ["A"]).length : ℚ) / 3) = ((s ++ ["B"]).length : ℚ) / 3
      simp)

/-! ## Markov attributor (`src/core/markov.py`) -/

/-- `MarkovAttribution._extract_channels` (`markov.py` lines 30–35):
`sorted(set(ch for journey in journeys for ch in journey))`. -/
def extract_channels (journeys : List (List String)) : List String :=
  journeys.flatten.toFinset.sort (· ≤ ·)

/-- The `excluded_channel` filter (`markov.py` lines 54–56).  Python's
`if excluded_channel:` is falsy both for `None` and for the empty string. -/
def filterJourney (excluded : Option String) (j : List String) : List String :=
  match excluded with
  | none => j
  | some ex => if ex = "" then j else j.filter (fun ch => decide (ch ≠ ex))

/-- The (from, to) transition pairs counted by `build_transition_matrix`
(`markov.py` lines 53–71): consecutive pairs of each (filtered, nonempty)
journey plus the final transition into the absorbing `CONVERSION`/`NULL`
state.  `zip` truncates to the shorter list exactly as Python's `zip`. -/
def transitionPairs (journeys : List (List String)) (conversions : List ℕ)
    (excluded : Option String) : List (String × String) :=
  ((journeys.zip conversions).map (fun jc =>
    let j := filterJourney excluded jc.1
    if j.isEmpty then []
    else j.zip j.tail ++
      [(j.getLastD "", if jc.2 ≠ 0 then "CONVERSION" else "NULL")])).flatten

/-- The multiset of destination states recorded for source state `a`
(the `to_states` counter of `markov.py` lines 51–71, one list entry per
counted transition). -/
def outsFor (journeys : List (List String)) (conversions : List ℕ)
    (excluded : Option String) (a : String) : List String :=
  ((transitionPairs journeys conversions excluded).filter
    (fun pr => decide (pr.1 = a))).map Prod.snd

/-- The normalized row for source state `a` (`markov.py` lines 76–81):
`count / total` over the distinct destinations of `a`. -/
def rowFor (journeys : List (List String)) (conversions : List ℕ)
    (excluded : Option String) (a : String) : String × List (String × ℚ) :=
  (a, (outsFor journeys conversions excluded a).dedup.map
    (fun b => (b, ((outsFor journeys conversions excluded a).count b : ℚ) /
      ((outsFor journeys conversions excluded a).length : ℚ))))

/-- `MarkovAttribution.build_transition_matrix` (`markov.py` lines 37–83):
one normalized row per source state that has at least one counted outgoing
transition; the `total > 0` guard of lines 76–81 is the length test. -/
def build_transition_matrix (journeys : List (List String))
    (conversions : List ℕ) (excluded : Option String) :
    List (String × List (String × ℚ)) :=
  ((transitionPairs journeys conversions excluded).map Prod.fst).dedup.filterMap
    (fun a =>
      if (outsFor journeys conversions excluded a).length > 0 then
        some (rowFor journeys conversions excluded a)
      else none)

/-- `MarkovAttribution.compute_conversion_probability` (`markov.py` lines
85–96): the mean of the per-state CONVERSION probabilities over the states
that can convert, `0` when no state can. -/
def compute_conversion_probability (m : List (String × List (String × ℚ))) : ℚ :=
  let ps := m.filterMap (fun row => row.2.lookup "CONVERSION")
  if ps.isEmpty then 0 else ps.sum / (ps.length : ℚ)

/-- The raw removal effect of one channel (`markov.py` lines 107–120):
`max(0, baseline − excluded)`. -/
def removal_effect (journeys : List (List String)) (conversions : List ℕ)
    (ch : String) : ℚ :=
  max 0 (compute_conversion_probability
      (build_transition_matrix journeys conversions none) -
    compute_conversion_probability
      (build_transition_matrix journeys conversions (some ch)))

/-- The dict of raw removal effects over the extracted channels
(`markov.py` lines 111–120). -/
def removal_effects_raw (journeys : List (List String)) (conversions : List ℕ) :
    List (String × ℚ) :=
  (extract_channels journeys).map
    (fun ch => (ch, removal_effect journeys conversions ch))

/-- `MarkovAttribution.compute_removal_effects` (`markov.py` lines 98–133):
normalizes the raw effects to sum to 1, or yields the uniform vector when
the total raw effect is 0 (lines 122–131). -/
def compute_removal_effects (journeys : List (List String))
    (conversions : List ℕ) : List (String × ℚ) :=
  if ((removal_effects_raw journeys conversions).map Prod.snd).sum > 0 then
    (removal_effects_raw journeys conversions).map (fun q =>
      (q.1, q.2 / ((removal_effects_raw journeys conversions).map Prod.snd).sum))
  else
    (extract_channels journeys).map
      (fun ch => (ch, 1 / ((extract_channels journeys).length : ℚ)))

/-! ### Helper sum lemmas -/

/-- Dividing each mapped term by a constant divides the sum. -/
theorem list_sum_map_div {α : Type} (l : List α) (f : α → ℚ) (c : ℚ) :
    (l.map (fun x => f x / c)).sum = (l.map f).sum / c := by
  induction l with
  | nil => simp
  | cons a t ih => simp [ih, add_div]

/-- Summing `count b / length` over the distinct elements of a nonempty list
gives exactly 1. -/
theorem sum_count_div_length (l : List String) (hne : l ≠ []) :
    ((l.dedup.map (fun b => (l.count b : ℚ) / (l.length : ℚ))).sum) = 1 := by
  rw [list_sum_map_div l.dedup (fun b => (l.count b : ℚ)) (l.length : ℚ)]
  have h1 : ((l.dedup.map (fun b => (l.count b : ℚ))).sum) = (l.length : ℚ) := by
    have h2 := congrArg (fun n : ℕ => (n : ℚ)) (List.sum_map_count_dedup_eq_length l)
    simpa [Nat.cast_list_sum, List.map_map, Function.comp] using h2
  rw [h1, div_self]
  exact_mod_cast fun h => hne (List.length_eq_zero.mp (by exact_mod_cast h))

/-- C6: in the transition model built from any corpus and any excluded
channel, every recorded source state's outgoing probabilities sum to exactly
1, and a state is recorded iff it is the source of at least one counted
transition (states with no outgoing transitions are absent, not zero rows). -/
theorem build_transition_matrix_rows (journeys : List (List String))
    (conversions : List ℕ) (excluded : Option String) :
    (∀ row ∈ build_transition_matrix journeys conversions excluded,
      ((row.2.map Prod.snd).sum) = 1) ∧
    (∀ a : String,
      (∃ row ∈ build_transition_matrix journeys conversions excluded,
        row.1 = a) ↔
      ∃ pr ∈ transitionPairs journeys conversions excluded, pr.1 = a) := by
  constructor
  · intro row hrow
    rw [build_transition_matrix, List.mem_filterMap] at hrow
    obtain ⟨a, _, hfa⟩ := hrow
    by_cases hlen : (outsFor journeys conversions excluded a).length > 0
    · rw [if_pos hlen] at hfa
      obtain rfl := Option.some.inj hfa
      have hne : outsFor journeys conversions excluded a ≠ [] := by
        intro h
        rw [h] at hlen
        simp at hlen
      have h1 := sum_count_div_length (outsFor journeys conversions excluded a) hne
      rw [rowFor]
      simpa [List.map_map, Function.comp] using h1
    · rw [if_neg hlen] at hfa
      exact Option.noConfusion hfa
  · intro a
    constructor
    · rintro ⟨row, hrow, rfl⟩
      rw [build_transition_matrix, List.mem_filterMap] at hrow
      obtain ⟨b, hb, hfb⟩ := hrow
      by_cases hlen : (outsFor journeys conversions excluded b).length > 0
      · rw [if_pos hlen] at hfb
        obtain rfl := Option.some.inj hfb
        rw [List.mem_dedup, List.mem_map] at hb
        obtain ⟨pr, hpr, hpr1⟩ := hb
        exact ⟨pr, hpr, hpr1⟩
      · rw [if_neg hlen] at hfb
        exact Option.noConfusion hfb
    · rintro ⟨pr, hpr, rfl⟩
      have hmem : pr.1 ∈ ((transitionPairs journeys conversions excluded).map
          Prod.fst).dedup := by
        rw [List.mem_dedup, List.mem_map]
        exact ⟨pr, hpr, rfl⟩
      have hfmem : pr ∈ (transitionPairs journeys conversions excluded).filter
          (fun x => decide (x.1 = pr.1)) := by
        rw [List.mem_filter]
        exact ⟨hpr, by simp⟩
      have hlen : (outsFor journeys conversions excluded pr.1).length > 0 := by
        rw [outsFor, List.length_map]
        refine List.length_pos.mpr fun h => ?_
        rw [h] at hfmem
        exact (List.not_mem_nil pr) hfmem
      refine ⟨rowFor journeys conversions excluded pr.1, ?_, rfl⟩
      rw [build_transition_matrix, List.mem_filterMap]
      exact ⟨pr.1, hmem, by rw [if_pos hlen]⟩

/-- Summing a constant over a list multiplies it by the length. -/
theorem list_sum_map_const {α : Type} (l : List α) (c : ℚ) :
    (l.map (fun _ => c)).sum = (l.length : ℚ) * c := by
  induction l with
  | nil => simp
  | cons a t ih =>
    simp [ih]
    ring

/-- Tagging each element with a computed value keeps the keys. -/
theorem list_map_fst_pair {α β : Type} (l : List α) (f : α → β) :
    ((l.map (fun x => (x, f x))).map Prod.fst) = l := by
  induction l with
  | nil => rfl
  | cons a t ih => simp [ih]

/-- Rescaling the values of an association list keeps the keys. -/
theorem list_map_fst_rescale (l : List (String × ℚ)) (c : ℚ) :
    ((l.map (fun q => (q.1, q.2 / c))).map Prod.fst) = l.map Prod.fst := by
  induction l with
  | nil => rfl
  | cons a t ih => simp [ih]

/-- C5: for every corpus whose sequences mention at least one contributor,
`compute_removal_effects` returns a vector over exactly the contributors
occurring in the corpus, with every entry ≥ 0 and entries summing to 1,
falling back to the uniform vector when every raw removal effect is 0 —
no division by zero occurs. -/
theorem compute_removal_effects_normalized (journeys : List (List String))
    (conversions : List ℕ) (hne : ∃ j ∈ journeys, j ≠ []) :
    ((compute_removal_effects journeys conversions).map Prod.fst =
      extract_channels journeys) ∧
    (∀ x : String, x ∈ extract_channels journeys ↔ ∃ j ∈ journeys, x ∈ j) ∧
    (∀ q ∈ compute_removal_effects journeys conversions, 0 ≤ q.2) ∧
    (((compute_removal_effects journeys conversions).map Prod.snd).sum = 1) ∧
    ((∀ ch ∈ extract_channels journeys,
        removal_effect journeys conversions ch = 0) →
      compute_removal_effects journeys conversions =
        (extract_channels journeys).map
          (fun ch => (ch, 1 / ((extract_channels journeys).length : ℚ)))) := by
  have hch : extract_channels journeys ≠ [] := by
    obtain ⟨j, hj, hjne⟩ := hne
    obtain ⟨x, hx⟩ := List.exists_mem_of_ne_nil j hjne
    have : x ∈ extract_channels journeys := by
      simp only [extract_channels, Finset.mem_sort, List.mem_toFinset,
        List.mem_flatten]
      exact ⟨j, hj, hx⟩
    exact List.ne_nil_of_mem this
  have hlen : (0 : ℚ) < ((extract_channels journeys).length : ℚ) := by
    exact_mod_cast List.length_pos.mpr hch
  refine ⟨?_, ?_, ?_, ?_, ?_⟩
  · unfold compute_removal_effects
    by_cases htot :
        ((removal_effects_raw journeys conversions).map Prod.snd).sum > 0
    · rw [if_pos htot, list_map_fst_rescale, removal_effects_raw,
        list_map_fst_pair]
    · rw [if_neg htot, list_map_fst_pair]
  · intro x
    simp only [extract_channels, Finset.mem_sort, List.mem_toFinset,
      List.mem_flatten]
  · intro q hq
    unfold compute_removal_effects at hq
    by_cases htot :
        ((removal_effects_raw journeys conversions).map Prod.snd).sum > 0
    · rw [if_pos htot] at hq
      rw [List.mem_map] at hq
      obtain ⟨q', hq', rfl⟩ := hq
      refine div_nonneg ?_ (le_of_lt htot)
      rw [removal_effects_raw, List.mem_map] at hq'
      obtain ⟨ch, _, rfl⟩ := hq'
      exact le_max_left 0 _
    · rw [if_neg htot] at hq
      rw [List.mem_map] at hq
      obtain ⟨ch, _, rfl⟩ := hq
      exact le_of_lt (by positivity)
  · unfold compute_removal_effects
    by_cases htot :
        ((removal_effects_raw journeys conversions).map Prod.snd).sum > 0
    · rw [if_pos htot]
      have h1 : ((removal_effects_raw journeys conversions).map (fun q =>
          (q.1, q.2 / ((removal_effects_raw journeys conversions).map
            Prod.snd).sum))).map Prod.snd =
          (removal_effects_raw journeys conversions).map (fun q =>
            Prod.snd q / ((removal_effects_raw journeys conversions).map
              Prod.snd).sum) := by
        rw [List.map_map]
        rfl
      rw [h1, list_sum_map_div, div_self (ne_of_gt htot)]
    · rw [if_neg htot]
      have h1 : (((extract_channels journeys).map (fun ch =>
          (ch, 1 / ((extract_channels journeys).length : ℚ)))).map
            Prod.snd) =
          (extract_channels journeys).map (fun _ =>
            1 / ((extract_channels journeys).length : ℚ)) := by
        rw [List.map_map]
        rfl
      rw [h1, list_sum_map_const, mul_one_div, div_self (ne_of_gt hlen)]
  · intro hz
    have htot : ((removal_effects_raw journeys conversions).map Prod.snd).sum
        = 0 := by
      refine List.sum_eq_zero fun x hx => ?_
      rw [removal_effects_raw, List.map_map, List.mem_map] at hx
      obtain ⟨ch, hch', rfl⟩ := hx
      exact hz ch hch'
    unfold compute_removal_effects
    rw [if_neg (by rw [htot]; exact lt_irrefl 0)]

/-- Witness for C5: the spec's example corpus
`[(["A","B","C"],1), (["A","C"],1), (["B","C"],0), (["A","B"],1)]`
mentions contributors, so the conclusion holds for it. -/
theorem compute_removal_effects_normalized_witness :
    ((compute_removal_effects [["A", "B", "C"], ["A", "C"], ["B", "C"],
        ["A", "B"]] [1, 1, 0, 1]).map Prod.fst =
      extract_channels [["A", "B", "C"], ["A", "C"], ["B", "C"], ["A", "B"]]) ∧
    (∀ x : String, x ∈ extract_channels
        [["A", "B", "C"], ["A", "C"], ["B", "C"], ["A", "B"]] ↔
      ∃ j ∈ [["A", "B", "C"], ["A", "C"], ["B", "C"], ["A", "B"]], x ∈ j) ∧
    (∀ q ∈ compute_removal_effects [["A", "B", "C"], ["A", "C"], ["B", "C"],
        ["A", "B"]] [1, 1, 0, 1], 0 ≤ q.2) ∧
    (((compute_removal_effects [["A", "B", "C"], ["A", "C"], ["B", "C"],
        ["A", "B"]] [1, 1, 0, 1]).map Prod.snd).sum = 1) ∧
    ((∀ ch ∈ extract_channels [["A", "B", "C"], ["A", "C"], ["B", "C"],
          ["A", "B"]],
        removal_effect [["A", "B", "C"], ["A", "C"], ["B", "C"], ["A", "B"]]
          [1, 1, 0, 1] ch = 0) →
      compute_removal_effects [["A", "B", "C"], ["A", "C"], ["B", "C"],
          ["A", "B"]] [1, 1, 0, 1] =
        (extract_channels [["A", "B", "C"], ["A", "C"], ["B", "C"],
          ["A", "B"]]).map (fun ch => (ch, 1 / ((extract_channels
            [["A", "B", "C"], ["A", "C"], ["B", "C"], ["A", "B"]]).length
              : ℚ)))) :=
  compute_removal_effects_normalized
    [["A", "B", "C"], ["A", "C"], ["B", "C"], ["A", "B"]] [1, 1, 0, 1]
    ⟨["A", "B", "C"], by decide⟩

/-! ## Privacy mechanism (`src/core/privacy.py`)

Randomness is passed explicitly: `np.random.laplace(0, scale)` equals
`scale` times a standard Laplace draw, so the embedding takes the stream of
standard draws `us : ℕ → ℚ` as an oracle argument (`us i` is the draw used
for the `i`-th channel of the attribution dict). -/

/-- The state of a `PrivateAttribution` instance (`privacy.py` lines 15–28). -/
structure PrivateAttribution where
  epsilon : ℚ
  delta : ℚ
  privacy_spent : ℚ

/-- `PrivateAttribution.__init__` (`privacy.py` lines 15–28): stores the
parameters as given — no validation is performed — and starts the spend
counter at 0. -/
def PrivateAttribution.init (epsilon delta : ℚ) : PrivateAttribution :=
  ⟨epsilon, delta, 0⟩

/-- `PrivateAttribution.laplace_noise` (`privacy.py` lines 30–48) for one
sample, with the standard Laplace draw `u` supplied by the oracle. -/
def laplace_noise (pa : PrivateAttribution) (sensitivity : ℚ) (u : ℚ) : ℚ :=
  sensitivity / pa.epsilon * u

/-- The clipped noisy weights of `privatize_attribution`
(`privacy.py` lines 64–73): sensitivity `2/n`, one Laplace draw per channel,
clipped at 0. -/
def noisyWeights (pa : PrivateAttribution) (attribution : List (String × ℚ))
    (us : ℕ → ℚ) : List (String × ℚ) :=
  attribution.enum.map (fun iq =>
    (iq.2.1, max 0 (iq.2.2 +
      laplace_noise pa (2 / (attribution.length : ℚ)) (us iq.1))))

/-- `PrivateAttribution.privatize_attribution` (`privacy.py` lines 50–85):
clipped noisy weights, renormalized only when their total is positive
(lines 75–80), and `epsilon` added to `privacy_spent` (line 83).  Returns
the updated instance state together with the noisy attribution. -/
def privatize_attribution (pa : PrivateAttribution)
    (attribution : List (String × ℚ)) (us : ℕ → ℚ) :
    PrivateAttribution × List (String × ℚ) :=
  (⟨pa.epsilon, pa.delta, pa.privacy_spent + pa.epsilon⟩,
   if ((noisyWeights pa attribution us).map Prod.snd).sum > 0 then
     (noisyWeights pa attribution us).map (fun q =>
       (q.1, q.2 / ((noisyWeights pa attribution us).map Prod.snd).sum))
   else noisyWeights pa attribution us)

/-- `PrivateAttribution.privacy_budget_remaining` (`privacy.py` lines
105–107). -/
def privacy_budget_remaining (pa : PrivateAttribution) : ℚ :=
  max 0 (pa.epsilon - pa.privacy_spent)

/-- The instance state after a sequence of `privatize_attribution` calls,
each call given by its attribution dict and its noise stream. -/
def privatize_calls (pa : PrivateAttribution)
    (calls : List (List (String × ℚ) × (ℕ → ℚ))) : PrivateAttribution :=
  calls.foldl (fun st c => (privatize_attribution st c.1 c.2).1) pa

/-- Each call leaves `epsilon` and `delta` unchanged and adds `epsilon` to
`privacy_spent`. -/
theorem privatize_calls_state (pa : PrivateAttribution)
    (calls : List (List (String × ℚ) × (ℕ → ℚ))) :
    (privatize_calls pa calls).privacy_spent =
      pa.privacy_spent + (calls.length : ℚ) * pa.epsilon ∧
    (privatize_calls pa calls).epsilon = pa.epsilon := by
  induction calls generalizing pa with
  | nil =>
    constructor
    · show pa.privacy_spent = pa.privacy_spent + 0 * pa.epsilon
      ring
    · rfl
  | cons c t ih =>
    have hstep : privatize_calls pa (c :: t) =
        privatize_calls ⟨pa.epsilon, pa.delta,
          pa.privacy_spent + pa.epsilon⟩ t := rfl
    rw [hstep]
    obtain ⟨h1, h2⟩ := ih ⟨pa.epsilon, pa.delta, pa.privacy_spent + pa.epsilon⟩
    refine ⟨?_, h2⟩
    rw [h1]
    show pa.privacy_spent + pa.epsilon + (t.length : ℚ) * pa.epsilon =
      pa.privacy_spent + ((t.length + 1 : ℕ) : ℚ) * pa.epsilon
    push_cast
    ring

/-- C3 counterexample: constructing the mechanism with the non-positive
`epsilon = -1` succeeds — the parameters are stored and no error is raised,
contradicting the claim that construction fails for `epsilon ≤ 0`. -/
theorem init_accepts_nonpositive_epsilon :
    (PrivateAttribution.init (-1) (1 / 100000)).epsilon = -1 ∧
    (PrivateAttribution.init (-1) (1 / 100000)).privacy_spent = 0 :=
  ⟨rfl, rfl⟩

/-- C3 amended: `PrivateAttribution.__init__` performs no validation of
`epsilon`: construction succeeds for every `epsilon` (positive or not),
storing `epsilon` and `delta` unchanged with `privacy_spent = 0`. -/
theorem init_stores_parameters (epsilon delta : ℚ) :
    (PrivateAttribution.init epsilon delta).epsilon = epsilon ∧
    (PrivateAttribution.init epsilon delta).delta = delta ∧
    (PrivateAttribution.init epsilon delta).privacy_spent = 0 :=
  ⟨rfl, rfl, rfl⟩

/-- C7 counterexample: with two channels of weight 1/2 and standard draws
all equal to −1, every clipped noisy weight is 0, so `privatize_attribution`
skips renormalization and returns weights summing to 0, not 1. -/
theorem privatize_attribution_zero_sum :
    (((privatize_attribution (PrivateAttribution.init 1 (1 / 100000))
      [("A", 1 / 2), ("B", 1 / 2)] (fun _ => -1)).2.map Prod.snd).sum) = 0 := by
  norm_num [privatize_attribution, noisyWeights, laplace_noise,
    PrivateAttribution.init, List.enum, List.enumFrom]

/-- C7 amended: `privatize_attribution` returns a mapping over the same
contributors with every weight ≥ 0; the weights sum to 1 whenever the
clipped noisy total is positive, and otherwise (all weights clipped to 0)
the unnormalized all-zero vector is returned. -/
theorem privatize_attribution_normalized (pa : PrivateAttribution)
    (attribution : List (String × ℚ)) (us : ℕ → ℚ)
    (hne : attribution ≠ []) :
    ((privatize_attribution pa attribution us).2.map Prod.fst =
      attribution.map Prod.fst) ∧
    (∀ q ∈ (privatize_attribution pa attribution us).2, 0 ≤ q.2) ∧
    (0 < ((noisyWeights pa attribution us).map Prod.snd).sum →
      (((privatize_attribution pa attribution us).2.map Prod.snd).sum) = 1) ∧
    (¬ 0 < ((noisyWeights pa attribution us).map Prod.snd).sum →
      (privatize_attribution pa attribution us).2 =
        noisyWeights pa attribution us) := by
  have hkeys : (noisyWeights pa attribution us).map Prod.fst =
      attribution.map Prod.fst := by
    rw [noisyWeights, List.map_map]
    have h1 : (Prod.fst ∘ fun iq : ℕ × String × ℚ =>
        (iq.2.1, max 0 (iq.2.2 + laplace_noise pa
          (2 / (attribution.length : ℚ)) (us iq.1)))) =
        (fun iq : ℕ × String × ℚ => iq.2.1) := rfl
    rw [h1]
    have h2 : (fun iq : ℕ × String × ℚ => iq.2.1) =
        (Prod.fst ∘ Prod.snd) := rfl
    rw [h2, ← List.map_map, List.enum_map_snd]
  have hpos : ∀ q ∈ noisyWeights pa attribution us, 0 ≤ q.2 := by
    intro q hq
    rw [noisyWeights, List.mem_map] at hq
    obtain ⟨iq, _, rfl⟩ := hq
    exact le_max_left 0 _
  refine ⟨?_, ?_, ?_, ?_⟩
  · unfold privatize_attribution
    by_cases htot : ((noisyWeights pa attribution us).map Prod.snd).sum > 0
    · rw [if_pos htot]
      show ((noisyWeights pa attribution us).map (fun q =>
        (q.1, q.2 / ((noisyWeights pa attribution us).map Prod.snd).sum))).map
          Prod.fst = attribution.map Prod.fst
      rw [list_map_fst_rescale, hkeys]
    · rw [if_neg htot]
      exact hkeys
  · intro q hq
    unfold privatize_attribution at hq
    by_cases htot : ((noisyWeights pa attribution us).map Prod.snd).sum > 0
    · rw [if_pos htot] at hq
      rw [List.mem_map] at hq
      obtain ⟨q', hq', rfl⟩ := hq
      exact div_nonneg (hpos q' hq') (le_of_lt htot)
    · rw [if_neg htot] at hq
      exact hpos q hq
  · intro htot
    unfold privatize_attribution
    rw [if_pos htot]
    show (((noisyWeights pa attribution us).map (fun q =>
      (q.1, q.2 / ((noisyWeights pa attribution us).map Prod.snd).sum))).map
        Prod.snd).sum = 1
    have h1 : (((noisyWeights pa attribution us).map (fun q =>
        (q.1, q.2 / ((noisyWeights pa attribution us).map Prod.snd).sum))).map
          Prod.snd) =
        (noisyWeights pa attribution us).map (fun q =>
          Prod.snd q / ((noisyWeights pa attribution us).map Prod.snd).sum) := by
      rw [List.map_map]
      rfl
    rw [h1, list_sum_map_div, div_self (ne_of_gt htot)]
  · intro htot
    unfold privatize_attribution
    rw [if_neg htot]

/-- Witness for C7 amended: concrete two-channel attribution and zero noise
draws. -/
theorem privatize_attribution_normalized_witness :
    (((privatize_attribution (PrivateAttribution.init 1 (1 / 100000))
        [("A", 1 / 2), ("B", 1 / 2)] (fun _ => 0)).2.map Prod.fst) =
      ([("A", (1 : ℚ) / 2), ("B", 1 / 2)].map Prod.fst)) ∧
    (∀ q ∈ (privatize_attribution (PrivateAttribution.init 1 (1 / 100000))
        [("A", 1 / 2), ("B", 1 / 2)] (fun _ => 0)).2, 0 ≤ q.2) ∧
    (0 < ((noisyWeights (PrivateAttribution.init 1 (1 / 100000))
        [("A", 1 / 2), ("B", 1 / 2)] (fun _ => 0)).map Prod.snd).sum →
      (((privatize_attribution (PrivateAttribution.init 1 (1 / 100000))
        [("A", 1 / 2), ("B", 1 / 2)] (fun _ => 0)).2.map Prod.snd).sum) = 1) ∧
    (¬ 0 < ((noisyWeights (PrivateAttribution.init 1 (1 / 100000))
        [("A", 1 / 2), ("B", 1 / 2)] (fun _ => 0)).map Prod.snd).sum →
      (privatize_attribution (PrivateAttribution.init 1 (1 / 100000))
        [("A", 1 / 2), ("B", 1 / 2)] (fun _ => 0)).2 =
        noisyWeights (PrivateAttribution.init 1 (1 / 100000))
          [("A", 1 / 2), ("B", 1 / 2)] (fun _ => 0)) :=
  privatize_attribution_normalized (PrivateAttribution.init 1 (1 / 100000))
    [("A", 1 / 2), ("B", 1 / 2)] (fun _ => 0) (by decide)

/-- C8: `privacy_spent` starts at 0 and after `k` completed calls equals
exactly `k · epsilon`; no call is refused for lack of remaining budget (the
spend counter simply keeps accumulating).  The nonemptiness hypothesis
mirrors Python, where an empty attribution dict would raise
`ZeroDivisionError` in the sensitivity computation before any spend. -/
theorem privacy_spent_linear (epsilon delta : ℚ)
    (calls : List (List (String × ℚ) × (ℕ → ℚ)))
    (hcalls : ∀ c ∈ calls, c.1 ≠ []) :
    (PrivateAttribution.init epsilon delta).privacy_spent = 0 ∧
    (privatize_calls (PrivateAttribution.init epsilon delta)
      calls).privacy_spent = (calls.length : ℚ) * epsilon := by
  refine ⟨rfl, ?_⟩
  have h := (privatize_calls_state (PrivateAttribution.init epsilon delta)
    calls).1
  rw [h]
  show (0 : ℚ) + (calls.length : ℚ) * epsilon = (calls.length : ℚ) * epsilon
  ring

/-- Witness for C8: two calls with one-channel attributions on
`epsilon = 1` spend exactly `2 · 1`. -/
theorem privacy_spent_linear_witness :
    (PrivateAttribution.init 1 (1 / 100000)).privacy_spent = 0 ∧
    (privatize_calls (PrivateAttribution.init 1 (1 / 100000))
      [([("A", 1)], fun _ => 0), ([("A", 1)], fun _ => 0)]).privacy_spent =
      ((2 : ℕ) : ℚ) * 1 :=
  privacy_spent_linear 1 (1 / 100000)
    [([("A", 1)], fun _ => 0), ([("A", 1)], fun _ => 0)]
    (by
      intro c hc
      simp only [List.mem_cons, List.not_mem_nil, or_false] at hc
      rcases hc with rfl | rfl
      · exact List.cons_ne_nil _ _
      · exact List.cons_ne_nil _ _)

/-- C10: with `epsilon > 0`, after at least one completed
`privatize_attribution` call the remaining budget
`max(0, epsilon − privacy_spent)` is exactly 0: each call spends the whole
per-instance budget. -/
theorem privacy_budget_exhausted (epsilon delta : ℚ)
    (calls : List (List (String × ℚ) × (ℕ → ℚ)))
    (heps : 0 < epsilon) (hk : 1 ≤ calls.length)
    (hcalls : ∀ c ∈ calls, c.1 ≠ []) :
    privacy_budget_remaining
      (privatize_calls (PrivateAttribution.init epsilon delta) calls) = 0 := by
  obtain ⟨h1, h2⟩ := privatize_calls_state (PrivateAttribution.init epsilon delta)
    calls
  unfold privacy_budget_remaining
  rw [h1, h2]
  show max 0 (epsilon - ((0 : ℚ) + (calls.length : ℚ) * epsilon)) = 0
  have hk' : (1 : ℚ) ≤ (calls.length : ℚ) := by exact_mod_cast hk
  refine max_eq_left ?_
  nlinarith

/-- Witness for C10: one call on `epsilon = 1` leaves remaining budget 0. -/
theorem privacy_budget_exhausted_witness :
    privacy_budget_remaining
      (privatize_calls (PrivateAttribution.init 1 (1 / 100000))
        [([("A", 1)], fun _ => 0)]) = 0 :=
  privacy_budget_exhausted 1 (1 / 100000) [([("A", 1)], fun _ => 0)]
    (by norm_num) (by decide)
    (by
      intro c hc
      simp only [List.mem_cons, List.not_mem_nil, or_false] at hc
      rcases hc with rfl
      exact List.cons_ne_nil _ _)

/-! ## Hybrid combiner (`src/core/hybrid.py`)

`HybridShapleyMarkov._extract_channels` (lines 32–37) is identical to the
Markov one (`sorted(set(...))`) and is embedded by the same
`extract_channels`.  The Monte-Carlo sampling of `np.random.permutation`
(`shapley.py` line 52) is an oracle argument: `perms` is the list of sampled
permutations, one per sample. -/

/-- `HybridShapleyMarkov._create_value_function` (`hybrid.py` lines 39–62):
the conversion rate over the journeys that use only coalition channels, `0`
for the empty coalition or when no journey qualifies. -/
def hybrid_value_function (journeys : List (List String))
    (conversions : List ℕ) (coalition : List String) : ℚ :=
  if coalition.isEmpty then 0
  else
    let rel := (journeys.zip conversions).filter
      (fun jc => jc.1.all (fun ch => decide (ch ∈ coalition)))
    if rel.isEmpty then 0
    else ((rel.map (fun jc => (jc.2 : ℚ))).sum) / (rel.length : ℚ)

/-- The per-sample marginal contributions of `monte_carlo_shapley`
(`shapley.py` lines 54–63): walking one sampled permutation, each player
contributes `v(prefix + player) − v(prefix)`. -/
def permMarginals (v : List String → ℚ) :
    List String → List String → List (String × ℚ)
  | _, [] => []
  | acc, p :: rest =>
    (p, v (acc ++ [p]) - v acc) :: permMarginals v (acc ++ [p]) rest

/-- `FastShapleyAttribution.monte_carlo_shapley` (`shapley.py` lines 32–71)
with the sampled permutations passed explicitly: each player's value is the
mean of its marginal contributions over the samples.  (`np.mean` of an empty
list is NaN in Python; the embedding's `0/0 = 0` case is not exercised when,
as in the source, every sampled permutation contains every player.) -/
def monte_carlo_shapley (players : List String) (v : List String → ℚ)
    (perms : List (List String)) : List (String × ℚ) :=
  players.map (fun p =>
    let ms := (perms.map (fun perm =>
      ((permMarginals v [] perm).filter
        (fun q => decide (q.1 = p))).map Prod.snd)).flatten
    (p, ms.sum / (ms.length : ℚ)))

/-- `HybridShapleyMarkov.compute_shapley_component` (`hybrid.py` lines
64–75): Monte-Carlo Shapley values over the extracted channels, normalized
when their total is positive. -/
def compute_shapley_component (journeys : List (List String))
    (conversions : List ℕ) (perms : List (List String)) :
    List (String × ℚ) :=
  if ((monte_carlo_shapley (extract_channels journeys)
      (hybrid_value_function journeys conversions) perms).map Prod.snd).sum
      > 0 then
    (monte_carlo_shapley (extract_channels journeys)
      (hybrid_value_function journeys conversions) perms).map (fun q =>
        (q.1, q.2 / ((monte_carlo_shapley (extract_channels journeys)
          (hybrid_value_function journeys conversions) perms).map
            Prod.snd).sum))
  else
    monte_carlo_shapley (extract_channels journeys)
      (hybrid_value_function journeys conversions) perms

/-- The weighted combination of `compute_hybrid_attribution`
(`hybrid.py` lines 100–106): `alpha * shapley + (1 - alpha) * markov` per
channel, with `dict.get(channel, 0.0)` as `lookup … |>.getD 0`.
`compute_markov_component` (lines 77–81) is `compute_removal_effects`. -/
def hybridRaw (journeys : List (List String)) (conversions : List ℕ)
    (perms : List (List String)) (alpha : ℚ) : List (String × ℚ) :=
  (extract_channels journeys).map (fun ch =>
    (ch, alpha * (((compute_shapley_component journeys conversions
        perms).lookup ch).getD 0) +
      (1 - alpha) * (((compute_removal_effects journeys
        conversions).lookup ch).getD 0)))

/-- `HybridShapleyMarkov.compute_hybrid_attribution` (`hybrid.py` lines
83–113): the weighted combination, normalized when its total is positive.
The method performs no validation of `alpha`. -/
def compute_hybrid_attribution (journeys : List (List String))
    (conversions : List ℕ) (perms : List (List String)) (alpha : ℚ) :
    List (String × ℚ) :=
  if ((hybridRaw journeys conversions perms alpha).map Prod.snd).sum > 0 then
    (hybridRaw journeys conversions perms alpha).map (fun q =>
      (q.1, q.2 / ((hybridRaw journeys conversions perms alpha).map
        Prod.snd).sum))
  else hybridRaw journeys conversions perms alpha

/-- C2 amended: `compute_hybrid_attribution` performs no validation of
`alpha` and never raises: for every `alpha` — inside or outside `[0,1]` —
it returns the blended attribution over the extracted channels, and the
output sums to 1 whenever the combined total is positive. -/
theorem compute_hybrid_attribution_total (journeys : List (List String))
    (conversions : List ℕ) (perms : List (List String)) (alpha : ℚ) :
    ((compute_hybrid_attribution journeys conversions perms alpha).map
      Prod.fst = extract_channels journeys) ∧
    (0 < ((hybridRaw journeys conversions perms alpha).map Prod.snd).sum →
      (((compute_hybrid_attribution journeys conversions perms
        alpha).map Prod.snd).sum) = 1) := by
  constructor
  · unfold compute_hybrid_attribution
    by_cases htot :
        ((hybridRaw journeys conversions perms alpha).map Prod.snd).sum > 0
    · rw [if_pos htot, list_map_fst_rescale, hybridRaw, list_map_fst_pair]
    · rw [if_neg htot, hybridRaw, list_map_fst_pair]
  · intro htot
    unfold compute_hybrid_attribution
    rw [if_pos htot]
    have h1 : (((hybridRaw journeys conversions perms alpha).map (fun q =>
        (q.1, q.2 / ((hybridRaw journeys conversions perms alpha).map
          Prod.snd).sum))).map Prod.snd) =
        (hybridRaw journeys conversions perms alpha).map (fun q =>
          Prod.snd q / ((hybridRaw journeys conversions perms alpha).map
            Prod.snd).sum) := by
      rw [List.map_map]
      rfl
    rw [h1, list_sum_map_div, div_self (ne_of_gt htot)]

/-- Witness for C2 amended: the conclusion instantiated at a concrete corpus
with the out-of-range `alpha = 2`. -/
theorem compute_hybrid_attribution_total_witness :
    ((compute_hybrid_attribution [["A"], ["B"]] [1, 0]
      [["A", "B"], ["B", "A"]] 2).map Prod.fst =
        extract_channels [["A"], ["B"]]) ∧
    (0 < ((hybridRaw [["A"], ["B"]] [1, 0] [["A", "B"], ["B", "A"]] 2).map
        Prod.snd).sum →
      (((compute_hybrid_attribution [["A"], ["B"]] [1, 0]
        [["A", "B"], ["B", "A"]] 2).map Prod.snd).sum) = 1) :=
  compute_hybrid_attribution_total [["A"], ["B"]] [1, 0]
    [["A", "B"], ["B", "A"]] 2

/-- C2 counterexample: on the corpus `[["A"],["B"]]` with conversions
`[1,0]` and two sampled permutations, `compute_hybrid_attribution` returns
normally for the out-of-range `alpha = 2` — no error is raised, refuting
"fails iff alpha outside [0,1]" — and the result differs from the one at
`alpha = 1`, so the out-of-range value is used as-is, not clamped. -/
theorem compute_hybrid_attribution_accepts_out_of_range :
    compute_hybrid_attribution [["A"], ["B"]] [1, 0]
      [["A", "B"], ["B", "A"]] 2 = [("A", 2), ("B", -1)] ∧
    compute_hybrid_attribution [["A"], ["B"]] [1, 0]
      [["A", "B"], ["B", "A"]] 1 = [("A", 3 / 2), ("B", -1 / 2)] := by
  have hch : extract_channels [["A"], ["B"]] = ["A", "B"] := by
    rw [extract_channels]
    exact (List.toFinset_sort _ (by decide)).mpr (by simp [List.sorted_cons]; decide)
  have hp0 : transitionPairs [["A"], ["B"]] [1, 0] none =
      [("A", "CONVERSION"), ("B", "NULL")] := by decide
  have hpA : transitionPairs [["A"], ["B"]] [1, 0] (some "A") =
      [("B", "NULL")] := by decide
  have hpB : transitionPairs [["A"], ["B"]] [1, 0] (some "B") =
      [("A", "CONVERSION")] := by decide
  have hm0 : build_transition_matrix [["A"], ["B"]] [1, 0] none =
      [("A", [("CONVERSION", 1)]), ("B", [("NULL", 1)])] := by
    norm_num +decide [build_transition_matrix, outsFor, rowFor, hp0,
      List.count_cons, List.dedup_cons_of_mem, List.dedup_cons_of_not_mem,
      List.filterMap_cons]
  have hmA : build_transition_matrix [["A"], ["B"]] [1, 0] (some "A") =
      [("B", [("NULL", 1)])] := by
    norm_num +decide [build_transition_matrix, outsFor, rowFor, hpA,
      List.count_cons, List.dedup_cons_of_mem, List.dedup_cons_of_not_mem,
      List.filterMap_cons]
  have hmB : build_transition_matrix [["A"], ["B"]] [1, 0] (some "B") =
      [("A", [("CONVERSION", 1)])] := by
    norm_num +decide [build_transition_matrix, outsFor, rowFor, hpB,
      List.count_cons, List.dedup_cons_of_mem, List.dedup_cons_of_not_mem,
      List.filterMap_cons]
  have hc0 : compute_conversion_probability
      [("A", [("CONVERSION", (1 : ℚ))]), ("B", [("NULL", 1)])] = 1 := by
    have h1 : ([("A", [("CONVERSION", (1 : ℚ))]), ("B", [("NULL", 1)])].filterMap
        (fun row => row.2.lookup "CONVERSION")) = [1] := by
      simp [List.lookup]
    rw [compute_conversion_probability]
    norm_num [h1]
  have hcA : compute_conversion_probability [("B", [("NULL", (1 : ℚ))])] = 0 := by
    have h1 : ([("B", [("NULL", (1 : ℚ))])].filterMap
        (fun row => row.2.lookup "CONVERSION")) = [] := by
      simp [List.lookup]
    rw [compute_conversion_probability]
    norm_num [h1]
  have hcB : compute_conversion_probability
      [("A", [("CONVERSION", (1 : ℚ))])] = 1 := by
    have h1 : ([("A", [("CONVERSION", (1 : ℚ))])].filterMap
        (fun row => row.2.lookup "CONVERSION")) = [1] := by
      simp [List.lookup]
    rw [compute_conversion_probability]
    norm_num [h1]
  have heffA : removal_effect [["A"], ["B"]] [1, 0] "A" = 1 := by
    rw [removal_effect, hm0, hmA, hc0, hcA]
    norm_num
  have heffB : removal_effect [["A"], ["B"]] [1, 0] "B" = 0 := by
    rw [removal_effect, hm0, hmB, hc0, hcB]
    norm_num
  have hraw : removal_effects_raw [["A"], ["B"]] [1, 0] =
      [("A", 1), ("B", 0)] := by
    rw [removal_effects_raw, hch]
    simp [heffA, heffB]
  have hmarkov : compute_removal_effects [["A"], ["B"]] [1, 0] =
      [("A", 1), ("B", 0)] := by
    rw [compute_removal_effects, hraw]
    norm_num
  have hvE : hybrid_value_function [["A"], ["B"]] [1, 0] [] = 0 := rfl
  have hvA : hybrid_value_function [["A"], ["B"]] [1, 0] ["A"] = 1 := by
    norm_num +decide [hybrid_value_function]
  have hvB : hybrid_value_function [["A"], ["B"]] [1, 0] ["B"] = 0 := by
    norm_num +decide [hybrid_value_function]
  have hvAB : hybrid_value_function [["A"], ["B"]] [1, 0] ["A", "B"] = 1 / 2 := by
    norm_num +decide [hybrid_value_function]
  have hvBA : hybrid_value_function [["A"], ["B"]] [1, 0] ["B", "A"] = 1 / 2 := by
    norm_num +decide [hybrid_value_function]
  have hmc : monte_carlo_shapley ["A", "B"]
      (hybrid_value_function [["A"], ["B"]] [1, 0]) [["A", "B"], ["B", "A"]] =
      [("A", 3 / 4), ("B", -1 / 4)] := by
    rw [monte_carlo_shapley]
    norm_num +decide [permMarginals, hvE, hvA, hvB, hvAB, hvBA,
      List.filter_cons, List.filter_nil]
  have hshap : compute_shapley_component [["A"], ["B"]] [1, 0]
      [["A", "B"], ["B", "A"]] = [("A", 3 / 2), ("B", -1 / 2)] := by
    rw [compute_shapley_component, hch, hmc]
    norm_num
  constructor
  · have hraw2 : hybridRaw [["A"], ["B"]] [1, 0] [["A", "B"], ["B", "A"]] 2 =
        [("A", 2), ("B", -1)] := by
      rw [hybridRaw, hch, hshap, hmarkov]
      norm_num [List.lookup, show (("A" : String) == "A") = true from rfl,
        show (("B" : String) == "A") = false from rfl,
        show (("B" : String) == "B") = true from rfl]
    rw [compute_hybrid_attribution, hraw2]
    norm_num
  · have hraw2 : hybridRaw [["A"], ["B"]] [1, 0] [["A", "B"], ["B", "A"]] 1 =
        [("A", 3 / 2), ("B", -1 / 2)] := by
      rw [hybridRaw, hch, hshap, hmarkov]
      norm_num [List.lookup, show (("A" : String) == "A") = true from rfl,
        show (("B" : String) == "A") = false from rfl,
        show (("B" : String) == "B") = true from rfl]
    rw [compute_hybrid_attribution, hraw2]
    norm_num

end Attribution
